import Mathlib

/-!
Shallow embedding of `src/backend/growin_core_src/src/lib.rs` (ticker
normalizer and technical-indicator engine).

Modelling conventions:
* Rust `String` is modelled as `List Char`; `str::to_uppercase` is modelled
  by `Char.toUpper` (the inputs of interest are ASCII), `trim` by dropping
  whitespace on both ends, `replace("$","")` / `replace("_","")` by `filter`.
* Rust `f64` is modelled as `ℚ` (exact arithmetic).  In `ℚ`, division by
  zero yields `0` where `f64` would yield `NaN`/`inf`; every theorem that
  depends on an indicator value assumes a positive period, where no division
  by zero occurs in the source.
* Rust `usize` is modelled as `Nat`.  Truncating `usize` subtractions in the
  source (`period - 1`, `i - period`, …) appear on paths that are only taken
  when they do not underflow; theorems assume positive periods accordingly.
* `f64::sqrt` takes irrational values, so `calculate_bbands` receives the
  square-root function as an explicit parameter `sqrtFn`; no theorem below
  depends on its values.
* The unbounded `loop` of the suffix-stripping step is given `length + 1`
  units of fuel; each pass that changes the string shortens it by at least
  three characters (every suffix has three), so the fuel is never exhausted
  before the loop's natural exit.
-/

/-! ### Ticker normalizer (lib.rs lines 6-95) -/

/-- lib.rs line 12: `ticker.to_uppercase()` (ASCII model). -/
def upperStr (s : List Char) : List Char := s.map Char.toUpper

/-- lib.rs line 12: `.trim()`. -/
def trimStr (s : List Char) : List Char :=
  ((s.dropWhile Char.isWhitespace).reverse.dropWhile Char.isWhitespace).reverse

/-- lib.rs line 12: `.replace("$", "")`. -/
def stripDollar (s : List Char) : List Char := s.filter (fun c => c != '$')

/-- lib.rs line 12: the whole cleaning step. -/
def cleanTicker (s : List Char) : List Char := stripDollar (trimStr (upperStr s))

/-- lib.rs line 23: the Trading212 suffix table. -/
def SUFFIXES : List (List Char) :=
  ["_EQ", "_US", "_BE", "_DE", "_GB", "_FR", "_NL", "_ES", "_IT"].map String.toList

/-- lib.rs lines 25-31: one pass of the inner `for` over the suffix table,
stripping every suffix that matches the current string, and recording
whether anything changed. -/
def stripOnce (n : List Char) : List Char × Bool :=
  SUFFIXES.foldl
    (fun acc s =>
      if s.isSuffixOf acc.1 then (acc.1.take (acc.1.length - s.length), true) else acc)
    (n, false)

/-- lib.rs lines 24-33: the outer `loop`, exiting when a pass changes
nothing (fuelled; see the module comment). -/
def stripLoop : Nat → List Char → List Char
  | 0, n => n
  | fuel + 1, n => if (stripOnce n).2 then stripLoop fuel (stripOnce n).1 else (stripOnce n).1

/-- lib.rs lines 24-33 with the fuel instantiated. -/
def stripSuffixes (n : List Char) : List Char := stripLoop (n.length + 1) n

/-- lib.rs line 34: `normalized.replace("_", "")`. -/
def removeUnderscores (s : List Char) : List Char := s.filter (fun c => c != '_')

/-- lib.rs lines 37-46: the special-mapping table, in declaration order. -/
def SPECIAL_MAPPINGS : List (List Char × List Char) :=
  ([("SSLNL", "SSLN"), ("SGLNL", "SGLN"), ("3GLD", "3GLD"), ("SGLN", "SGLN"),
    ("PHGP", "PHGP"), ("PHAU", "PHAU"), ("3LTS", "3LTS"), ("3USL", "3USL"),
    ("LLOY1", "LLOY"), ("VOD1", "VOD"), ("BARC1", "BARC"), ("TSCO1", "TSCO"),
    ("BPL1", "BP"), ("BPL", "BP"), ("AZNL1", "AZN"), ("AZNL", "AZN"),
    ("SGLN1", "SGLN"), ("MAG5", "MAG5"), ("MAG5L", "MAG5"), ("MAG7", "MAG7"),
    ("MAG7L", "MAG7"), ("GLD3", "GLD3"), ("3UKL", "3UKL"), ("5QQQ", "5QQQ"),
    ("TSL3", "TSL3"), ("NVD3", "NVD3"), ("AVL", "AV"), ("UUL", "UU"),
    ("BAL", "BA"), ("SLL", "SL"), ("AU", "AUT"), ("RBL", "RKT"), ("MICCL", "MICC")] :
      List (String × String)).map (fun p => (p.1.toList, p.2.toList))

/-- lib.rs lines 48-53: first-match rewrite through the special-mapping
table (`break` after the first hit). -/
def applySpecial (n : List Char) : List Char :=
  match SPECIAL_MAPPINGS.find? (fun kv => kv.1 == n) with
  | some kv => kv.2
  | none => n

/-- lib.rs line 56: the protected stems. -/
def STEMS : List (List Char) :=
  ["LLOY", "BARC", "VOD", "HSBA", "TSCO", "BP", "AZN", "RR", "NG", "SGLN", "SSLN"].map
    String.toList

/-- lib.rs lines 57-62: drop a trailing `'1'` from a protected stem. -/
def applyStemFix (n : List Char) : List Char :=
  if n.getLast? == some '1' && decide (3 < n.length) then
    if STEMS.contains n.dropLast then n.dropLast else n
  else n

/-- lib.rs lines 65-76: the US exclusion table (duplicates kept as written). -/
def US_EXCLUSIONS : List (List Char) :=
  ["AAPL", "MSFT", "GOOG", "AMZN", "NVDA", "TSLA", "META", "NFLX",
   "AMD", "INTC", "PYPL", "ADBE", "CSCO", "PEP", "COST", "AVGO", "QCOM", "TXN",
   "ORCL", "CRM", "IBM", "UBER", "ABNB", "SNOW", "PLTR", "SQ", "SHOP", "SPOT",
   "GOOGL", "JPM", "BAC", "WFC", "C", "GS", "MS", "BLK", "AXP", "V", "MA", "COF", "USB",
   "CAT", "DE", "GE", "GM", "F", "BA", "LMT", "RTX", "HON", "UPS", "FDX", "UNP", "MMM",
   "WMT", "TGT", "HD", "LOW", "MCD", "SBUX", "NKE", "KO", "PEP", "PG", "CL", "MO", "PM",
   "DIS", "CMCSA",
   "JNJ", "PFE", "MRK", "ABBV", "LLY", "UNH", "CVS", "AMGN", "GILD", "BMY", "ISRG",
   "TMO", "ABT", "DHR",
   "XOM", "CVX", "COP", "SLB", "EOG", "OXY", "KMI", "HAL", "T", "VZ", "TMUS",
   "SPY", "QQQ", "DIA", "IWM", "IVV", "VOO", "VTI", "GLD", "SLV", "ARKK", "SMH",
   "XLF", "XLE", "XLK", "XLV",
   "F", "T", "C", "V", "Z", "O", "D", "R", "K", "X", "S", "M", "A", "G"].map String.toList

/-- lib.rs line 78: `is_explicit_uk`. -/
def explicitUKB (original : List Char) : Bool :=
  decide ("_EQ".toList <:+: original) && !(decide ("_US".toList <:+: original))

/-- lib.rs line 79: `is_likely_uk`. -/
def likelyUK (n : List Char) : Bool :=
  (decide (n.length ≤ 5) || n.getLast? == some 'L') && !(US_EXCLUSIONS.contains n)

/-- lib.rs lines 81-83: the trailing-`'L'` drop (`normalized.pop()`). -/
def ukDrop (n : List Char) : List Char :=
  if likelyUK n && (n.getLast? == some 'L') && decide (3 < n.length) &&
      !(US_EXCLUSIONS.contains n)
  then n.dropLast else n

/-- lib.rs lines 85-86: `is_leveraged`, evaluated after the `'L'` drop. -/
def leveragedB (n : List Char) : Bool :=
  (n.head? == some '3' || n.head? == some '5' || n.head? == some '7') ||
    (n.getLast? == some '2' || n.getLast? == some '3' || n.getLast? == some '5' ||
      n.getLast? == some '7')

/-- The literal `".L"`. -/
def dotL : List Char := ['.', 'L']

/-- lib.rs lines 79-94: the exchange-classification block.  `is_likely_uk`
is evaluated on the pre-drop symbol, `is_leveraged` on the post-drop one,
exactly as in the source. -/
def exchangeStage (e : Bool) (n : List Char) : List Char :=
  if (e || likelyUK n || leveragedB (ukDrop n)) && !(dotL.isSuffixOf (ukDrop n)) &&
      !((ukDrop n).contains '.')
  then ukDrop n ++ dotL else ukDrop n

/-- lib.rs lines 19-94: everything after the early exits. -/
def tickerPipeline (c : List Char) : List Char :=
  exchangeStage (explicitUKB c) (applyStemFix (applySpecial (removeUnderscores (stripSuffixes c))))

/-- lib.rs lines 6-95: `normalize_ticker`. -/
def normalize_ticker (t : List Char) : List Char :=
  if t = [] then []
  else if (cleanTicker t).contains '.' then cleanTicker t
  else tickerPipeline (cleanTicker t)

/-! ### Indicator engine (lib.rs lines 97-351) -/

/-- lib.rs lines 200-216: the body of `calculate_sma`'s loop, with the
running `sum` threaded explicitly; `fuel` counts the remaining iterations. -/
def smaGo (data : List ℚ) (period : Nat) : Nat → ℚ → Nat → List ℚ
  | _, _, 0 => []
  | i, s, fuel + 1 =>
    if period ≤ i then
      (s + data.getD i 0 - data.getD (i - period) 0) / (period : ℚ) ::
        smaGo data period (i + 1) (s + data.getD i 0 - data.getD (i - period) 0) fuel
    else if i = period - 1 then
      (s + data.getD i 0) / (period : ℚ) ::
        smaGo data period (i + 1) (s + data.getD i 0) fuel
    else
      0 :: smaGo data period (i + 1) (s + data.getD i 0) fuel

/-- lib.rs lines 200-216: `calculate_sma`. -/
def calculate_sma (data : List ℚ) (period : Nat) : List ℚ :=
  smaGo data period 0 0 data.length

/-- lib.rs lines 254-257 and 284-287: the shared EMA recurrence
`curr = d[i]*k + curr*(1-k)`, emitting one value per remaining element. -/
def emaSteps (k : ℚ) : ℚ → List ℚ → List ℚ
  | _, [] => []
  | prev, x :: xs => (x * k + prev * (1 - k)) :: emaSteps k (x * k + prev * (1 - k)) xs

/-- lib.rs line 233: `start_idx`. -/
def emaStart (data : List ℚ) (period : Nat) : Nat :=
  if period ≤ data.length then period - 1 else 0

/-- lib.rs lines 243-249: the seed value (the `else` branch is dead in the
source — it is kept for fidelity). -/
def emaSeed (data : List ℚ) (period : Nat) : ℚ :=
  if emaStart data period < data.length then
    (data.take (emaStart data period + 1)).sum / ((emaStart data period : ℚ) + 1)
  else data.getD 0 0

/-- lib.rs lines 221-261: `calculate_ema`. -/
def calculate_ema (data : List ℚ) (period : Nat) : List ℚ :=
  if data = [] then []
  else if emaStart data period < data.length then
    List.replicate (emaStart data period) 0 ++
      emaSeed data period ::
        emaSteps (2 / ((period : ℚ) + 1)) (emaSeed data period)
          (data.drop (emaStart data period + 1))
  else List.replicate (emaStart data period) 0

/-- lib.rs lines 280-281: the seed of the MACD-internal EMA helper. -/
def emaSeedM (d : List ℚ) (p : Nat) : ℚ := (d.take p).sum / (p : ℚ)

/-- lib.rs lines 269-290: the EMA helper `get_ema` defined inside
`calculate_macd` (pads `p-1` zeros, then seeds with the mean of the first
`p` elements only when the input is long enough). -/
def get_ema (d : List ℚ) (p : Nat) : List ℚ :=
  if p ≤ d.length then
    List.replicate (p - 1) 0 ++
      emaSeedM d p :: emaSteps (2 / ((p : ℚ) + 1)) (emaSeedM d p) (d.drop p)
  else List.replicate (p - 1) 0

/-- lib.rs lines 295-299: `macd_line[i] = ema_fast[i] - ema_slow[i]`. -/
def macdLine (data : List ℚ) (fast slow : Nat) : List ℚ :=
  (List.range data.length).map
    (fun i => (get_ema data fast).getD i 0 - (get_ema data slow).getD i 0)

/-- lib.rs line 305: `signal_line = get_ema(&macd_line, signal)`. -/
def signalLine (data : List ℚ) (fast slow signal : Nat) : List ℚ :=
  get_ema (macdLine data fast slow) signal

/-- lib.rs lines 307-310: `histogram[i] = macd_line[i] - signal_line[i]`. -/
def macdHistogram (data : List ℚ) (fast slow signal : Nat) : List ℚ :=
  (List.range data.length).map
    (fun i =>
      (macdLine data fast slow).getD i 0 - (signalLine data fast slow signal).getD i 0)

/-- lib.rs lines 267-313: `calculate_macd`. -/
def calculate_macd (data : List ℚ) (fast slow signal : Nat) :
    List ℚ × List ℚ × List ℚ :=
  (macdLine data fast slow, signalLine data fast slow signal,
    macdHistogram data fast slow signal)

/-- lib.rs lines 116-121: the difference sequence (`diffs[0] = 0`). -/
def rsiDiffs (prices : List ℚ) : List ℚ :=
  0 :: List.zipWith (fun a b => a - b) (prices.drop 1) prices

/-- lib.rs line 135: `warmup_end`. -/
def rsiWarmupEnd (prices : List ℚ) (period : Nat) : Nat :=
  if period < (rsiDiffs prices).length then period else (rsiDiffs prices).length - 1

/-- lib.rs lines 131-148: the warm-up averages `(avg_gain, avg_loss)`. -/
def rsiInitAvgs (prices : List ℚ) (period : Nat) : ℚ × ℚ :=
  (((List.range (rsiWarmupEnd prices period)).map
        (fun j => (rsiDiffs prices).getD (j + 1) 0)).foldl
      (fun gl c => if 0 < c then (gl.1 + c, gl.2) else (gl.1, gl.2 + |c|)) (0, 0)).map
    (fun g => g / (if 0 < rsiWarmupEnd prices period then (rsiWarmupEnd prices period : ℚ) else 1))
    (fun l => l / (if 0 < rsiWarmupEnd prices period then (rsiWarmupEnd prices period : ℚ) else 1))

/-- lib.rs lines 179-186: one emitted RSI value from the smoothed averages
(`rs` is the `100.0` sentinel when `avg_loss == 0`). -/
def rsiPoint (g l : ℚ) : ℚ :=
  100 - 100 / (1 + (if l = 0 then (100 : ℚ) else g / l))

/-- lib.rs lines 155-187: the main RSI loop from index `period` on, with
the smoothed averages threaded; at `i == period` the warm-up averages are
used unchanged. -/
def rsiGo (diffs : List ℚ) (period : Nat) : Nat → ℚ → ℚ → Nat → List ℚ
  | _, _, _, 0 => []
  | i, g, l, fuel + 1 =>
    rsiPoint
        (if i = period then g
         else (g * ((period : ℚ) - 1) + (if 0 < diffs.getD i 0 then diffs.getD i 0 else 0)) /
           (period : ℚ))
        (if i = period then l
         else (l * ((period : ℚ) - 1) + (if 0 < diffs.getD i 0 then 0 else |diffs.getD i 0|)) /
           (period : ℚ)) ::
      rsiGo diffs period (i + 1)
        (if i = period then g
         else (g * ((period : ℚ) - 1) + (if 0 < diffs.getD i 0 then diffs.getD i 0 else 0)) /
           (period : ℚ))
        (if i = period then l
         else (l * ((period : ℚ) - 1) + (if 0 < diffs.getD i 0 then 0 else |diffs.getD i 0|)) /
           (period : ℚ))
        fuel

/-- lib.rs lines 107-195: `calculate_rsi`. -/
def calculate_rsi (prices : List ℚ) (period : Nat) : List ℚ :=
  if prices.length < period then List.replicate prices.length 50
  else
    List.replicate period 50 ++
      rsiGo (rsiDiffs prices) period period (rsiInitAvgs prices period).1
        (rsiInitAvgs prices period).2 (prices.length - period)

/-- lib.rs lines 333-334: the window `&data[start_idx..=i]` with
`start_idx = (i + 1) - period`. -/
def bbWindow (data : List ℚ) (period i : Nat) : List ℚ :=
  (data.drop (i + 1 - period)).take (i + 1 - (i + 1 - period))

/-- lib.rs lines 335-336: the window mean. -/
def bbMean (data : List ℚ) (period i : Nat) : ℚ :=
  (bbWindow data period i).sum / (period : ℚ)

/-- lib.rs lines 338-342: the population variance of the window. -/
def bbVar (data : List ℚ) (period i : Nat) : ℚ :=
  ((bbWindow data period i).map (fun x => (x - bbMean data period i) ^ 2)).sum / (period : ℚ)

/-- lib.rs lines 319-351: `calculate_bbands`, returning
`(upper, middle, lower)`; `sqrtFn` stands for `f64::sqrt`. -/
def calculate_bbands (data : List ℚ) (period : Nat) (std_dev : ℚ) (sqrtFn : ℚ → ℚ) :
    List ℚ × List ℚ × List ℚ :=
  ((List.range data.length).map
      (fun i =>
        if i < period - 1 then 0
        else bbMean data period i + std_dev * sqrtFn (bbVar data period i)),
   (List.range data.length).map
      (fun i => if i < period - 1 then 0 else bbMean data period i),
   (List.range data.length).map
      (fun i =>
        if i < period - 1 then 0
        else bbMean data period i - std_dev * sqrtFn (bbVar data period i)))

/-! ### Concrete evaluations settling individual claims -/

/-- C1 counterexample: on the empty input with the documented default
periods, the signal line returned by `calculate_macd` has length `9 - 1 = 8`,
not the input length `0`, so not every returned sequence has the input's
length. -/
theorem macd_signal_length_counterexample :
    (calculate_macd ([] : List ℚ) 12 26 9).2.1.length ≠ ([] : List ℚ).length := by decide

/-- C2: with `period = 0`, `calculate_sma` returns a full-length result
instead of signalling an invalid-argument failure — the source has no error
path at all (in `f64` the single entry is `NaN = 0.0/0.0`; in the exact
model division by zero gives `0`). -/
theorem sma_zero_period_returns_result : calculate_sma [(1 : ℚ)] 0 = [0] := by
  norm_num [calculate_sma, smaGo]

/-- C3 counterexample: on `prices = [1,2,3]`, `period = 2`, the warm-up
average loss is `0`, and the value emitted at index `2 ≥ period` is
`100 - 100/(1+100) = 10000/101 ≈ 99.0099`, not `100`. -/
theorem rsi_zero_loss_counterexample :
    (rsiInitAvgs [1, 2, 3] 2).2 = 0 ∧
      calculate_rsi [1, 2, 3] 2 = [50, 50, 10000 / 101] ∧
      (10000 : ℚ) / 101 ≠ 100 := by
  refine ⟨?_, ?_, by norm_num⟩
  · norm_num [rsiInitAvgs, rsiWarmupEnd, rsiDiffs, List.range_succ]
  · norm_num [calculate_rsi, rsiGo, rsiPoint, rsiInitAvgs, rsiWarmupEnd, rsiDiffs,
      List.range_succ, List.replicate]

/-- C3 amended: when the smoothed average loss is zero the code sets the
*relative strength* `rs` (not the RSI) to the sentinel `100.0`, so the
emitted value is `100 - 100/(1+100) = 10000/101`, regardless of the
smoothed average gain. -/
theorem rsi_zero_loss_amended (g : ℚ) : rsiPoint g 0 = 10000 / 101 := by
  unfold rsiPoint
  norm_num

/-- C4 counterexample: on input `[1]` with period `2`, the MACD-internal
EMA helper returns `[0]` (one padding zero) while `calculate_ema` returns
`[1]` (seeded from the first price), so the two routines are not equal on
all inputs. -/
theorem macd_ema_refinement_counterexample :
    get_ema [(1 : ℚ)] 2 ≠ calculate_ema [(1 : ℚ)] 2 := by
  norm_num [get_ema, calculate_ema, emaStart, emaSeed, emaSeedM, emaSteps]

/-- C5: `calculate_rsi [1,2,1,2,5] 3` has length 5, starts with three
`50`s, and ends with `200/3` and `260/3`, which are within `1e-3` of
`66.667` and `86.667` respectively. -/
theorem rsi_concrete_case :
    calculate_rsi [1, 2, 1, 2, 5] 3 = [50, 50, 50, 200 / 3, 260 / 3] ∧
      |(200 : ℚ) / 3 - 66667 / 1000| ≤ 1 / 1000 ∧
      |(260 : ℚ) / 3 - 86667 / 1000| ≤ 1 / 1000 := by
  refine ⟨?_, by rw [abs_le]; constructor <;> norm_num, by rw [abs_le]; constructor <;> norm_num⟩
  norm_num [calculate_rsi, rsiGo, rsiPoint, rsiInitAvgs, rsiWarmupEnd, rsiDiffs,
    List.range_succ, List.replicate]

/-- C6: `normalize_ticker "3UKL" = "3UK.L"`: the symbol is likely-UK, the
trailing `L` is dropped first, the leveraged check then fires on `"3UK"`,
and `".L"` is appended exactly once (one dot in the output). -/
theorem normalize_3UKL :
    likelyUK "3UKL".toList = true ∧
      ukDrop "3UKL".toList = "3UK".toList ∧
      leveragedB "3UK".toList = true ∧
      normalize_ticker "3UKL".toList = "3UK.L".toList ∧
      (normalize_ticker "3UKL".toList).count '.' = 1 := by decide

/-- C8 counterexample: `normalize_ticker` is not idempotent on all inputs:
`"A. $"` cleans to `"A. "` (removing `'$'` exposes a trailing space) and is
returned via the early exit, but renormalizing trims it to `"A."`. -/
theorem normalize_idempotent_counterexample :
    normalize_ticker (normalize_ticker "A. $".toList) ≠ normalize_ticker "A. $".toList := by
  decide

/-! ### Length lemmas -/

/-- The loop `smaGo` emits exactly one value per unit of fuel. -/
theorem smaGo_length (data : List ℚ) (period : Nat) :
    ∀ (fuel i : Nat) (s : ℚ), (smaGo data period i s fuel).length = fuel := by
  intro fuel
  induction fuel with
  | zero => intro i s; rfl
  | succ n ih =>
    intro i s
    unfold smaGo
    split
    · simp [ih]
    · split <;> simp [ih]

/-- The EMA recurrence emits one value per remaining element. -/
theorem emaSteps_length (k : ℚ) : ∀ (l : List ℚ) (p : ℚ), (emaSteps k p l).length = l.length := by
  intro l
  induction l with
  | nil => intro p; rfl
  | cons x xs ih => intro p; simp [emaSteps, ih]

/-- The loop `rsiGo` emits exactly one value per unit of fuel. -/
theorem rsiGo_length (diffs : List ℚ) (period : Nat) :
    ∀ (fuel i : Nat) (g l : ℚ), (rsiGo diffs period i g l fuel).length = fuel := by
  intro fuel
  induction fuel with
  | zero => intro i g l; rfl
  | succ n ih =>
    intro i g l
    unfold rsiGo
    simp [ih]

/-- The MACD-internal EMA helper returns the input length when the input is
long enough, and `p - 1` padding zeros otherwise. -/
theorem get_ema_length (d : List ℚ) (p : Nat) (hp : 1 ≤ p) :
    (get_ema d p).length = if p ≤ d.length then d.length else p - 1 := by
  unfold get_ema
  split
  · rename_i h
    simp [emaSteps_length]
    omega
  · simp

theorem calculate_sma_length (data : List ℚ) (period : Nat) :
    (calculate_sma data period).length = data.length :=
  smaGo_length data period data.length 0 0

theorem calculate_rsi_length (prices : List ℚ) (period : Nat) :
    (calculate_rsi prices period).length = prices.length := by
  unfold calculate_rsi
  split
  · simp
  · next h => simp [rsiGo_length]; omega

theorem calculate_ema_length (data : List ℚ) (period : Nat) (hp : 1 ≤ period) :
    (calculate_ema data period).length = data.length := by
  by_cases hd : data = []
  · simp [calculate_ema, hd]
  · have hlen : 0 < data.length := List.length_pos.mpr hd
    by_cases hple : period ≤ data.length
    · have hst : emaStart data period = period - 1 := by simp [emaStart, hple]
      have hlt : emaStart data period < data.length := by omega
      simp only [calculate_ema, if_neg hd, if_pos hlt]
      simp [emaSteps_length, hst]
      omega
    · have hst : emaStart data period = 0 := by simp [emaStart, hple]
      have hlt : emaStart data period < data.length := by omega
      simp only [calculate_ema, if_neg hd, if_pos hlt]
      simp [emaSteps_length, hst]
      omega

theorem macdLine_length (data : List ℚ) (fast slow : Nat) :
    (macdLine data fast slow).length = data.length := by
  simp [macdLine]

theorem signalLine_length (data : List ℚ) (fast slow signal : Nat) (hg : 1 ≤ signal) :
    (signalLine data fast slow signal).length =
      if signal ≤ data.length then data.length else signal - 1 := by
  unfold signalLine
  rw [get_ema_length _ _ hg, macdLine_length]

theorem macdHistogram_length (data : List ℚ) (fast slow signal : Nat) :
    (macdHistogram data fast slow signal).length = data.length := by
  simp [macdHistogram]

/-- C1 amended: with positive periods, every indicator output has the
input's length — except the signal line of `calculate_macd`, whose length
is `max (len data) (signal - 1)`: when `len data < signal` the internal EMA
helper returns its `signal - 1` padding zeros, so the signal line is longer
than the input whenever `len data < signal - 1`. -/
theorem indicator_lengths_amended (data : List ℚ) (p fast slow signal : Nat) (sd : ℚ)
    (sq : ℚ → ℚ) (hp : 1 ≤ p) (hf : 1 ≤ fast) (hs : 1 ≤ slow) (hg : 1 ≤ signal) :
    (calculate_sma data p).length = data.length ∧
      (calculate_rsi data p).length = data.length ∧
      (calculate_ema data p).length = data.length ∧
      (calculate_macd data fast slow signal).1.length = data.length ∧
      (calculate_macd data fast slow signal).2.1.length = max data.length (signal - 1) ∧
      (calculate_macd data fast slow signal).2.2.length = data.length ∧
      (calculate_bbands data p sd sq).1.length = data.length ∧
      (calculate_bbands data p sd sq).2.1.length = data.length ∧
      (calculate_bbands data p sd sq).2.2.length = data.length := by
  refine ⟨calculate_sma_length data p, calculate_rsi_length data p,
    calculate_ema_length data p hp, macdLine_length data fast slow, ?_,
    macdHistogram_length data fast slow signal, ?_, ?_, ?_⟩
  · show (signalLine data fast slow signal).length = _
    rw [signalLine_length data fast slow signal hg]
    split <;> omega
  · simp [calculate_bbands]
  · simp [calculate_bbands]
  · simp [calculate_bbands]

/-- C1 witness instance. -/
theorem indicator_lengths_amended_witness :
    (calculate_sma [(1 : ℚ), 2, 3] 2).length = 3 := by
  have h := indicator_lengths_amended [(1 : ℚ), 2, 3] 2 2 2 2 2 id (by decide) (by decide)
    (by decide) (by decide)
  simpa using h.1

/-- C4 amended: the MACD-internal EMA helper agrees with `calculate_ema`
whenever the input is at least as long as the (positive) period; on shorter
inputs they differ (the helper returns only padding, while `calculate_ema`
seeds from the first element). -/
theorem macd_ema_refinement_amended (d : List ℚ) (p : Nat) (hp : 1 ≤ p)
    (hlen : p ≤ d.length) : get_ema d p = calculate_ema d p := by
  have hd : d ≠ [] := by
    intro h
    subst h
    simp at hlen
    omega
  have hst : emaStart d p = p - 1 := by simp [emaStart, hlen]
  have hlt : emaStart d p < d.length := by omega
  have hsucc : p - 1 + 1 = p := Nat.sub_add_cancel hp
  have hcast : ((p - 1 : Nat) : ℚ) + 1 = (p : ℚ) := by
    rw [Nat.cast_sub hp]
    push_cast
    ring
  have hseed : emaSeed d p = emaSeedM d p := by
    unfold emaSeed emaSeedM
    rw [if_pos hlt, hst, hsucc, hcast]
  unfold get_ema calculate_ema
  rw [if_pos hlen, if_neg hd, if_pos hlt, hst, hsucc, hseed]

/-- C4 witness instance. -/
theorem macd_ema_refinement_amended_witness :
    get_ema [(1 : ℚ), 2] 2 = calculate_ema [(1 : ℚ), 2] 2 :=
  macd_ema_refinement_amended [(1 : ℚ), 2] 2 (by decide) (by decide)

/-- C9: with positive periods every index accessed inside `calculate_macd`
is in bounds: the internal EMA helper's output is never shorter than its
input (so `ema_fast[i]`, `ema_slow[i]`, `signal_line[i]` exist for every
`i < len data`), and in particular it always returns at least
`min (len input) (period - 1)` elements. -/
theorem macd_index_bounds (data : List ℚ) (fast slow signal : Nat)
    (hf : 1 ≤ fast) (hs : 1 ≤ slow) (hg : 1 ≤ signal) :
    data.length ≤ (get_ema data fast).length ∧
      data.length ≤ (get_ema data slow).length ∧
      (macdLine data fast slow).length = data.length ∧
      data.length ≤ (signalLine data fast slow signal).length ∧
      ∀ p : Nat, 1 ≤ p → min data.length (p - 1) ≤ (get_ema data p).length := by
  refine ⟨?_, ?_, macdLine_length data fast slow, ?_, ?_⟩
  · rw [get_ema_length data fast hf]
    split <;> omega
  · rw [get_ema_length data slow hs]
    split <;> omega
  · rw [signalLine_length data fast slow signal hg]
    split <;> omega
  · intro p hp
    rw [get_ema_length data p hp]
    split <;> omega

/-- C9 witness instance. -/
theorem macd_index_bounds_witness :
    [(1 : ℚ), 2].length ≤ (get_ema [(1 : ℚ), 2] 1).length :=
  (macd_index_bounds [(1 : ℚ), 2] 1 1 1 (by decide) (by decide) (by decide)).1

/-! ### The middle Bollinger band and the running-sum SMA -/

/-- Adding the `(i+1)`-st element to a prefix sum. -/
theorem sum_take_succ (l : List ℚ) (i : Nat) :
    (l.take (i + 1)).sum = (l.take i).sum + l.getD i 0 := by
  induction l generalizing i with
  | nil => simp
  | cons x xs ih =>
    cases i with
    | zero => simp
    | succ n =>
      simp only [List.take_succ_cons, List.sum_cons, ih n, List.getD_cons_succ]
      ring

/-- Splitting a prefix sum at `a`. -/
theorem sum_take_add (l : List ℚ) (a c : Nat) :
    (l.take (a + c)).sum = (l.take a).sum + ((l.drop a).take c).sum := by
  rw [List.take_add, List.sum_append]

/-- Closed form of one SMA output value: the mean of the window ending at
`i`, written with prefix sums, and `0` in the padding region. -/
def smaSpec (data : List ℚ) (period : Nat) (i : Nat) : ℚ :=
  if period ≤ i + 1 then
    ((data.take (i + 1)).sum - (data.take (i + 1 - period)).sum) / (period : ℚ)
  else 0

/-- The running-sum loop of `calculate_sma` computes `smaSpec` pointwise:
the threaded sum always equals the difference of two prefix sums. -/
theorem smaGo_eq_spec (data : List ℚ) (period : Nat) :
    ∀ (fuel i : Nat) (s : ℚ),
      s = (data.take i).sum - (data.take (i - period)).sum →
      smaGo data period i s fuel =
        (List.range fuel).map (fun j => smaSpec data period (i + j)) := by
  intro fuel
  induction fuel with
  | zero => intro i s _; rfl
  | succ n ih =>
    intro i s hs
    have hfun : ((fun j => smaSpec data period (i + j)) ∘ Nat.succ) =
        fun j => smaSpec data period (i + 1 + j) := by
      funext j
      show smaSpec data period (i + (j + 1)) = smaSpec data period (i + 1 + j)
      congr 1
      omega
    rw [List.range_succ_eq_map, List.map_cons, List.map_map, hfun]
    simp only [smaGo]
    by_cases hpi : period ≤ i
    · have hinv : s + data.getD i 0 - data.getD (i - period) 0 =
          (data.take (i + 1)).sum - (data.take (i + 1 - period)).sum := by
        rw [sum_take_succ data i, show i + 1 - period = i - period + 1 from by omega,
          sum_take_succ data (i - period), hs]
        ring
      rw [if_pos hpi, hinv, ih (i + 1) _ rfl]
      congr 1
      unfold smaSpec
      rw [Nat.add_zero, if_pos (show period ≤ i + 1 from by omega)]
    · have hinv : s + data.getD i 0 =
          (data.take (i + 1)).sum - (data.take (i + 1 - period)).sum := by
        rw [sum_take_succ data i, hs, show i - period = 0 from by omega,
          show i + 1 - period = 0 from by omega]
        simp
      by_cases hip : i = period - 1
      · rw [if_neg hpi, if_pos hip, hinv, ih (i + 1) _ rfl]
        congr 1
        unfold smaSpec
        rw [Nat.add_zero, if_pos (show period ≤ i + 1 from by omega)]
      · rw [if_neg hpi, if_neg hip, hinv, ih (i + 1) _ rfl]
        congr 1
        unfold smaSpec
        rw [Nat.add_zero, if_neg (show ¬ period ≤ i + 1 from by omega)]

/-- The function `calculate_sma` in closed form. -/
theorem calculate_sma_eq_spec (data : List ℚ) (period : Nat) :
    calculate_sma data period = (List.range data.length).map (smaSpec data period) := by
  have h := smaGo_eq_spec data period data.length 0 0 (by simp)
  simpa using h

/-- C7: the middle band of `calculate_bbands` (fresh window sums) equals
`calculate_sma` (incremental running sum), element for element, for every
positive period and any square-root function. -/
theorem bbands_middle_eq_sma (data : List ℚ) (period : Nat) (sd : ℚ) (sq : ℚ → ℚ)
    (hp : 1 ≤ period) :
    (calculate_bbands data period sd sq).2.1 = calculate_sma data period := by
  rw [calculate_sma_eq_spec]
  show (List.range data.length).map
      (fun i => if i < period - 1 then 0 else bbMean data period i) = _
  refine List.map_congr_left fun i _ => ?_
  by_cases hi : i < period - 1
  · rw [if_pos hi]
    unfold smaSpec
    rw [if_neg (show ¬ period ≤ i + 1 from by omega)]
  · rw [if_neg hi]
    unfold bbMean bbWindow smaSpec
    rw [if_pos (show period ≤ i + 1 from by omega),
      show i + 1 - (i + 1 - period) = period from by omega]
    have h := sum_take_add data (i + 1 - period) period
    rw [show i + 1 - period + period = i + 1 from by omega] at h
    rw [h]
    ring

/-- C7 witness instance. -/
theorem bbands_middle_eq_sma_witness :
    (calculate_bbands [(1 : ℚ), 2, 3] 2 2 id).2.1 = calculate_sma [(1 : ℚ), 2, 3] 2 :=
  bbands_middle_eq_sma [(1 : ℚ), 2, 3] 2 2 id (by decide)

/-! ### Normalizer facts -/

/-- Every vendor suffix contains an underscore. -/
theorem suffixes_underscore : ∀ s ∈ SUFFIXES, '_' ∈ s := by decide

/-- No vendor suffix contains a dot. -/
theorem suffixes_no_dot : ∀ s ∈ SUFFIXES, '.' ∉ s := by decide

/-- No special-mapping value contains an underscore. -/
theorem special_values_no_underscore : ∀ kv ∈ SPECIAL_MAPPINGS, '_' ∉ kv.2 := by decide

/-- Every special-mapping key is classified likely-UK (length at most 5 and
not US-excluded). -/
theorem special_keys_likely : ∀ kv ∈ SPECIAL_MAPPINGS, likelyUK kv.1 = true := by decide

/-- Every protected stem with a `'1'` appended is classified likely-UK. -/
theorem stems_append_one_likely : ∀ s ∈ STEMS, likelyUK (s ++ ['1']) = true := by decide

/-- Decomposing a list at a suffix: the kept prefix plus the suffix is the
whole list. -/
theorem take_of_suffix (s m : List Char) (h : s <:+ m) :
    m.take (m.length - s.length) ++ s = m := by
  obtain ⟨pre, rfl⟩ := h
  have hl : (pre ++ s).length - s.length = pre.length := by simp
  rw [hl, List.take_left]

/-- A stripping pass is the identity when no suffix matches. -/
theorem stripOnce_id (n : List Char) (h : ∀ s ∈ SUFFIXES, ¬ s.isSuffixOf n = true) :
    stripOnce n = (n, false) := by
  unfold stripOnce
  have key : ∀ (L : List (List Char)), (∀ s ∈ L, ¬ s.isSuffixOf n = true) →
      L.foldl (fun acc s =>
        if s.isSuffixOf acc.1 then (acc.1.take (acc.1.length - s.length), true) else acc)
        (n, false) = (n, false) := by
    intro L
    induction L with
    | nil => intro _; rfl
    | cons a as ih =>
      intro hL
      have ha : ¬ a.isSuffixOf n = true := hL a (List.mem_cons_self a as)
      simp only [List.foldl_cons, if_neg ha]
      exact ih fun s hs => hL s (List.mem_cons_of_mem a hs)
  exact key SUFFIXES h

/-- A character that occurs in no suffix survives a stripping pass. -/
theorem stripOnce_mem (c : Char) (hc : ∀ s ∈ SUFFIXES, c ∉ s) (n : List Char)
    (h : c ∈ n) : c ∈ (stripOnce n).1 := by
  unfold stripOnce
  have key : ∀ (L : List (List Char)), (∀ s ∈ L, c ∉ s) → ∀ acc : List Char × Bool,
      c ∈ acc.1 →
      c ∈ (L.foldl (fun acc s =>
        if s.isSuffixOf acc.1 then (acc.1.take (acc.1.length - s.length), true) else acc)
        acc).1 := by
    intro L
    induction L with
    | nil => intro _ acc hacc; exact hacc
    | cons a as ih =>
      intro hL acc hacc
      simp only [List.foldl_cons]
      by_cases hsuf : a.isSuffixOf acc.1 = true
      · rw [if_pos hsuf]
        refine ih (fun s hs => hL s (List.mem_cons_of_mem a hs)) _ ?_
        have hdec := take_of_suffix a acc.1 (List.isSuffixOf_iff_suffix.mp hsuf)
        have hmem : c ∈ acc.1.take (acc.1.length - a.length) ++ a := by rw [hdec]; exact hacc
        rcases List.mem_append.mp hmem with h1 | h2
        · exact h1
        · exact absurd h2 (hL a (List.mem_cons_self a as))
      · rw [if_neg hsuf]
        exact ih (fun s hs => hL s (List.mem_cons_of_mem a hs)) acc hacc
  exact key SUFFIXES hc (n, false) h

/-- A character that occurs in no suffix survives the whole stripping loop. -/
theorem stripLoop_mem (c : Char) (hc : ∀ s ∈ SUFFIXES, c ∉ s) :
    ∀ (fuel : Nat) (n : List Char), c ∈ n → c ∈ stripLoop fuel n := by
  intro fuel
  induction fuel with
  | zero => intro n h; exact h
  | succ k ih =>
    intro n h
    rw [stripLoop]
    split
    · exact ih _ (stripOnce_mem c hc n h)
    · exact stripOnce_mem c hc n h

/-- Underscore-free strings are untouched by the suffix stripper. -/
theorem stripSuffixes_id (n : List Char) (h : '_' ∉ n) : stripSuffixes n = n := by
  have hno : ∀ s ∈ SUFFIXES, ¬ s.isSuffixOf n = true := by
    intro s hs hsuf
    exact h ((List.isSuffixOf_iff_suffix.mp hsuf).subset (suffixes_underscore s hs))
  show stripLoop (n.length + 1) n = n
  rw [stripLoop, stripOnce_id n hno]
  simp

/-- The underscore remover leaves no underscore behind. -/
theorem removeUnderscores_no_underscore (s : List Char) : '_' ∉ removeUnderscores s := by
  intro h
  have := (List.mem_filter.mp h).2
  simp at this

/-- Underscore-free strings are untouched by the underscore remover. -/
theorem removeUnderscores_id (s : List Char) (h : '_' ∉ s) : removeUnderscores s = s := by
  unfold removeUnderscores
  rw [List.filter_eq_self]
  intro a ha
  simp only [bne_iff_ne, ne_eq, decide_eq_true_eq]
  intro hEq
  exact h (hEq ▸ ha)

/-- The special mapping preserves absence of underscores. -/
theorem applySpecial_no_underscore (n : List Char) (h : '_' ∉ n) :
    '_' ∉ applySpecial n := by
  unfold applySpecial
  rcases hf : SPECIAL_MAPPINGS.find? (fun kv => kv.1 == n) with _ | kv
  · rw [hf]
    exact h
  · rw [hf]
    exact special_values_no_underscore kv (List.mem_of_find?_eq_some hf)

/-- The special mapping is the identity on symbols that are not likely-UK
(every key is likely-UK). -/
theorem applySpecial_of_not_likely (n : List Char) (h : likelyUK n = false) :
    applySpecial n = n := by
  unfold applySpecial
  rcases hf : SPECIAL_MAPPINGS.find? (fun kv => kv.1 == n) with _ | kv
  · rw [hf]
  · exfalso
    have hp : (kv.1 == n) = true := by simpa using List.find?_some hf
    have hk : likelyUK kv.1 = true :=
      special_keys_likely kv (List.mem_of_find?_eq_some hf)
    rw [eq_of_beq hp, h] at hk
    exact Bool.false_ne_true hk

/-- The stem fix preserves absence of underscores. -/
theorem applyStemFix_no_underscore (n : List Char) (h : '_' ∉ n) :
    '_' ∉ applyStemFix n := by
  unfold applyStemFix
  split
  · split
    · intro hm
      exact h ((List.dropLast_prefix n).subset hm)
    · exact h
  · exact h

/-- The stem fix is the identity on symbols that are not likely-UK (every
protected stem plus `'1'` is likely-UK). -/
theorem applyStemFix_of_not_likely (n : List Char) (h : likelyUK n = false) :
    applyStemFix n = n := by
  unfold applyStemFix
  split
  · rename_i hcond
    split
    · rename_i hstem
      exfalso
      rw [Bool.and_eq_true] at hcond
      have h1 : (n.getLast? == some '1') = true := hcond.1
      have hne : n ≠ [] := by
        intro hnil
        rw [hnil] at h1
        exact absurd (eq_of_beq h1) (by simp)
      have hlast : n.getLast hne = '1' := by
        have := List.getLast?_eq_getLast n hne
        have h2 := eq_of_beq h1
        rw [this] at h2
        exact Option.some.inj h2
      have hdecomp : n.dropLast ++ ['1'] = n := by
        rw [← hlast]
        exact List.dropLast_concat_getLast hne
      have hmem : n.dropLast ∈ STEMS := by
        have hel : List.elem n.dropLast STEMS = true := hstem
        exact List.elem_iff.mp hel
      have hlik : likelyUK (n.dropLast ++ ['1']) = true :=
        stems_append_one_likely n.dropLast hmem
      rw [hdecomp, h] at hlik
      exact Bool.false_ne_true hlik
    · rfl
  · rfl

/-- The L-drop is the identity on symbols that are not likely-UK. -/
theorem ukDrop_of_not_likely (n : List Char) (h : likelyUK n = false) : ukDrop n = n := by
  unfold ukDrop
  rw [h]
  simp

/-- C10: every non-empty input whose cleaned-and-stripped form is empty
(e.g. only whitespace or only dollar signs) is classified likely-UK as the
empty symbol and normalizes to the bare suffix `".L"`. -/
theorem normalize_empty_clean_dotL (t : List Char) (ht : t ≠ [])
    (h : removeUnderscores (stripSuffixes (cleanTicker t)) = []) :
    normalize_ticker t = dotL := by
  have hdotmem : '.' ∉ cleanTicker t := by
    intro hmem
    have h1 : '.' ∈ stripSuffixes (cleanTicker t) :=
      stripLoop_mem '.' suffixes_no_dot ((cleanTicker t).length + 1) (cleanTicker t) hmem
    have h2 : '.' ∈ removeUnderscores (stripSuffixes (cleanTicker t)) :=
      List.mem_filter.mpr ⟨h1, by decide⟩
    rw [h] at h2
    exact absurd h2 (List.not_mem_nil '.')
  have hcont : ¬ (cleanTicker t).contains '.' = true := by
    intro hc
    exact hdotmem (List.elem_iff.mp hc)
  rw [normalize_ticker, if_neg ht, if_neg hcont]
  unfold tickerPipeline
  rw [h]
  have e1 : applySpecial [] = ([] : List Char) := rfl
  have e2 : applyStemFix [] = ([] : List Char) := rfl
  rw [e1, e2]
  cases hE : explicitUKB (cleanTicker t)
  · rfl
  · rfl

/-- C10 witness instance. -/
theorem normalize_empty_clean_dotL_witness : normalize_ticker "$".toList = dotL :=
  normalize_empty_clean_dotL "$".toList (by decide) (by decide)

/-- C8 amended: `normalize_ticker` is idempotent on every input whose
output is unchanged by the cleaning stage (uppercasing, trimming, `'$'`
removal).  Unconditional idempotence fails because removing `'$'` (or
stripping a vendor suffix) can expose leading/trailing whitespace that only
the second pass trims away. -/
theorem normalize_idempotent_amended (t : List Char)
    (hstable : cleanTicker (normalize_ticker t) = normalize_ticker t) :
    normalize_ticker (normalize_ticker t) = normalize_ticker t := by
  have earlyExit : ∀ z : List Char, cleanTicker z = z → '.' ∈ z →
      normalize_ticker z = z := by
    intro z hz hdotz
    have hzne : z ≠ [] := by
      intro h0
      rw [h0] at hdotz
      exact absurd hdotz (List.not_mem_nil _)
    have hcont : (cleanTicker z).contains '.' = true := by
      rw [hz]
      exact List.elem_iff.mpr hdotz
    rw [normalize_ticker, if_neg hzne, if_pos hcont, hz]
  by_cases ht : t = []
  · rw [ht]
    rfl
  by_cases hdot : '.' ∈ normalize_ticker t
  · exact earlyExit _ hstable hdot
  cases hcc : (cleanTicker t).contains '.' with
  | true =>
    exfalso
    have hy : normalize_ticker t = cleanTicker t := by
      rw [normalize_ticker, if_neg ht, if_pos hcc]
    rw [hy] at hdot
    exact hdot (List.elem_iff.mp hcc)
  | false =>
    have hy : normalize_ticker t =
        exchangeStage (explicitUKB (cleanTicker t))
          (applyStemFix (applySpecial (removeUnderscores (stripSuffixes (cleanTicker t))))) := by
      rw [normalize_ticker, if_neg ht, if_neg (by rw [hcc]; simp)]
      rfl
    set n := applyStemFix (applySpecial (removeUnderscores (stripSuffixes (cleanTicker t)))) with hn
    rw [exchangeStage] at hy
    split at hy
    · exfalso
      rw [hy] at hdot
      exact hdot (List.mem_append.mpr (Or.inr (by decide)))
    · rename_i hcond
      rw [hy] at hdot hstable ⊢
      have hsuf : dotL.isSuffixOf (ukDrop n) = false := by
        rw [Bool.eq_false_iff]
        intro hs
        exact hdot ((List.isSuffixOf_iff_suffix.mp hs).subset (by decide))
      have hcontn : (ukDrop n).contains '.' = false := by
        rw [Bool.eq_false_iff]
        intro hc2
        exact hdot (List.elem_iff.mp hc2)
      have hflags : (explicitUKB (cleanTicker t) || likelyUK n || leveragedB (ukDrop n)) = false := by
        rw [Bool.eq_false_iff]
        intro hfl
        apply hcond
        rw [hfl, hsuf, hcontn]
        rfl
      rw [Bool.or_eq_false_iff, Bool.or_eq_false_iff] at hflags
      obtain ⟨⟨hEc, hL⟩, hLev⟩ := hflags
      have hdrop : ukDrop n = n := ukDrop_of_not_likely n hL
      rw [hdrop] at hdot hstable hcontn hLev ⊢
      have hu : '_' ∉ n := by
        rw [hn]
        exact applyStemFix_no_underscore _
          (applySpecial_no_underscore _ (removeUnderscores_no_underscore _))
      have hne : n ≠ [] := by
        intro h0
        have htrue : likelyUK ([] : List Char) = true := by decide
        rw [h0, htrue] at hL
        simp at hL
      have hcontn2 : ¬ n.contains '.' = true := by
        rw [hcontn]
        simp
      rw [normalize_ticker, if_neg hne, hstable, if_neg hcontn2]
      unfold tickerPipeline
      rw [stripSuffixes_id n hu, removeUnderscores_id n hu, applySpecial_of_not_likely n hL,
        applyStemFix_of_not_likely n hL]
      have hinf : ¬ ("_EQ".toList <:+: n) := by
        intro hq
        exact hu (hq.subset (by decide))
      have hEn : explicitUKB n = false := by
        unfold explicitUKB
        rw [decide_eq_false hinf]
        rfl
      rw [exchangeStage, ukDrop_of_not_likely n hL, hEn, hL, hLev]
      simp

/-- C8 witness instance. -/
theorem normalize_idempotent_amended_witness :
    normalize_ticker (normalize_ticker "VOD_EQ".toList) = normalize_ticker "VOD_EQ".toList :=
  normalize_idempotent_amended "VOD_EQ".toList (by decide)
